import Mathlib

/-!
Verification of the EarthZones circular-longitude engine (`earth_zones.py`).

The Python source works on floating-point longitudes; the shallow embedding
below models longitudes as rationals (`ℚ`), Python's `%` on a positive
modulus as `pymod` (which agrees with Python's sign convention), and
Python's `math.floor`/`int` as `Int.floor`.  Lists, sorting and filtering
mirror the source's use of `sorted`, `list.filter`-style loops and
`list.sort(key=...)`.  A small tagged type `PFloat` is used where the
behaviour on non-finite floats (NaN, ±inf) is itself the property at issue.
-/

namespace EarthZones

/-- Python `x % m` for a positive modulus `m`: result has the sign of `m`. -/
def pymod (x m : ℚ) : ℚ := x - m * ⌊x / m⌋

/-- Constant `ZONE_WIDTH_DEG = 36.0` from the source. -/
def ZONE_WIDTH_DEG : ℚ := 36

/-- Constant `LANGFANG_LON_EAST_BOUNDARY = 116.7` from the source. -/
def LANGFANG_LON_EAST_BOUNDARY : ℚ := 1167 / 10

/-- Model of `normalize_lon_edge`: normalize to [-180, 180], keeping +180 distinct
from -180 when the original longitude was positive. -/
def normalize_lon_edge (lon : ℚ) : ℚ :=
  let x := pymod (lon + 180) 360 - 180
  if x = -180 ∧ 0 < lon then 180 else x

/-- Model of `normalize_lon_point`: normalize to [-180, 180), folding +180 to -180. -/
def normalize_lon_point (lon : ℚ) : ℚ :=
  let x := normalize_lon_edge lon
  if x = 180 then -180 else x

/-- Model of `lon_to_360`: map a longitude to [0, 360). -/
def lon_to_360 (lon : ℚ) : ℚ := pymod lon 360

/-- Model of `lon360_to_edge`: convert a [0,360) longitude to [-180,180] edge form. -/
def lon360_to_edge (lon360 : ℚ) : ℚ :=
  let x := if 180 < lon360 then lon360 - 360 else lon360
  if x = -180 then -180 else x

/-- Insert into an ascending list (model of Python `sorted`). -/
def insertSorted (x : ℚ) : List ℚ → List ℚ
  | [] => [x]
  | y :: ys => if x ≤ y then x :: y :: ys else y :: insertSorted x ys

/-- Ascending sort of a list of rationals (model of Python `sorted`). -/
def sortAsc : List ℚ → List ℚ
  | [] => []
  | x :: xs => insertSorted x (sortAsc xs)

/-- The max-gap scan loop of `circular_min_cover_interval`: running
`(max_gap, max_i)` over `i in range(len(pts))`, updating on strict `>`. -/
def maxGapScan (pts : List ℚ) : ℚ × Nat :=
  (List.range pts.length).foldl
    (fun acc i =>
      let a := pts.getD i 0
      let b := pts.getD ((i + 1) % pts.length) 0
      let gap := pymod (b - a) 360
      if acc.1 < gap then (gap, i) else acc)
    (-1, 0)

/-- Model of `circular_min_cover_interval`: shortest arc covering all the points,
as the complement of the largest circular gap. -/
def circular_min_cover_interval (lons : List ℚ) : Option (ℚ × ℚ) :=
  if lons = [] then none
  else
    let pts := sortAsc (lons.map lon_to_360)
    if pts.length = 1 then
      let w := lon360_to_edge (pts.getD 0 0)
      some (w, w)
    else
      let max_i := (maxGapScan pts).2
      let east_start := pts.getD ((max_i + 1) % pts.length) 0
      let west_start := pts.getD max_i 0
      some (lon360_to_edge east_start, lon360_to_edge west_start)

/-- The `ZoneInterval` dataclass: zone number plus half-open arc [west, east). -/
structure ZoneInterval where
  zone : ℤ
  west : ℚ
  east : ℚ
deriving DecidableEq, Repr

/-- Model of `build_zone_intervals`: the ten 36°-wide zone intervals, zone 9 ending
(exclusively) at the configured boundary. -/
def build_zone_intervals (east_boundary_zone9 : ℚ := LANGFANG_LON_EAST_BOUNDARY) :
    List ZoneInterval :=
  let east_b := normalize_lon_point east_boundary_zone9
  let origin := normalize_lon_point (east_b - ZONE_WIDTH_DEG)
  (List.range 10).map fun steps_east =>
    let zone : ℤ := (9 - (steps_east : ℤ)) % 10
    let west := normalize_lon_point (origin + (steps_east : ℚ) * ZONE_WIDTH_DEG)
    let east := normalize_lon_point (west + ZONE_WIDTH_DEG)
    ⟨zone, west, east⟩

/-- The `steps_east = int(math.floor(diff / ZONE_WIDTH_DEG))` computation of
`lon_to_zone_interval`, exposed as its own definition. -/
def zone_steps_east (lon : ℚ) (east_boundary_zone9 : ℚ) : ℤ :=
  ⌊pymod (normalize_lon_point lon -
      normalize_lon_point (normalize_lon_point east_boundary_zone9 - ZONE_WIDTH_DEG)) 360 /
    ZONE_WIDTH_DEG⌋

/-- Model of `lon_to_zone_interval`: map a point longitude to its zone interval. -/
def lon_to_zone_interval (lon : ℚ)
    (east_boundary_zone9 : ℚ := LANGFANG_LON_EAST_BOUNDARY) : ZoneInterval :=
  let east_b := normalize_lon_point east_boundary_zone9
  let origin := normalize_lon_point (east_b - ZONE_WIDTH_DEG)
  let steps_east : ℤ := zone_steps_east lon east_boundary_zone9
  let zone := (9 - steps_east) % 10
  let west := normalize_lon_point (origin + (steps_east : ℚ) * ZONE_WIDTH_DEG)
  let east := normalize_lon_point (west + ZONE_WIDTH_DEG)
  ⟨zone, west, east⟩

/-- Model of `split_range`: split a possibly seam-crossing range into 1–2 segments. -/
def split_range (west east : ℚ) : List (ℚ × ℚ) :=
  let w := normalize_lon_edge west
  let e := normalize_lon_edge east
  if w ≤ e then [(w, e)]
  else [(w, 180), (-180, e)]

/-- Model of `ranges_intersect`: open-overlap test for two non-wrapping segments. -/
def ranges_intersect (a b : ℚ × ℚ) : Bool :=
  decide (a.1 < b.2 ∧ b.1 < a.2)

/-- Insertion step for sorting zone intervals by zone number
(model of `covered.sort(key=lambda x: x.zone)`). -/
def insertByZone (x : ZoneInterval) : List ZoneInterval → List ZoneInterval
  | [] => [x]
  | y :: ys => if x.zone ≤ y.zone then x :: y :: ys else y :: insertByZone x ys

/-- Sort zone intervals ascending by zone number. -/
def sortByZone : List ZoneInterval → List ZoneInterval
  | [] => []
  | x :: xs => insertByZone x (sortByZone xs)

/-- Model of `zones_covered_by_lon_range`: all zones whose arc intersects the given
(possibly wrapping) longitude range, sorted by zone number. -/
def zones_covered_by_lon_range (bbox_west bbox_east : ℚ)
    (east_boundary_zone9 : ℚ := LANGFANG_LON_EAST_BOUNDARY) : List ZoneInterval :=
  let parts := split_range bbox_west bbox_east
  let intervals := build_zone_intervals east_boundary_zone9
  let covered := intervals.filter fun zi =>
    parts.any fun p => (split_range zi.west zi.east).any fun zp => ranges_intersect p zp
  sortByZone covered

/-- The per-zone hit test inside `zones_covered_by_lon_range`, specialised
to a degenerate (point) query whose single part is `(p, p)`. -/
def zhit (p : ℚ) (zi : ZoneInterval) : Bool :=
  (split_range zi.west zi.east).any fun zp => ranges_intersect (p, p) zp

/-- Membership of a point in the half-open arc [west, east) of a zone
interval, measured eastward mod 360. -/
def inArc (p : ℚ) (zi : ZoneInterval) : Prop :=
  pymod (p - zi.west) 360 < pymod (zi.east - zi.west) 360

instance (p : ℚ) (zi : ZoneInterval) : Decidable (inArc p zi) := by
  unfold inArc; infer_instance

/-- The `origin` (west edge of zone 9) computed by both
`build_zone_intervals` and `lon_to_zone_interval`. -/
def zorigin (b : ℚ) : ℚ :=
  normalize_lon_point (normalize_lon_point b - ZONE_WIDTH_DEG)

/-- The zone interval generated for loop index `steps_east = s`. -/
def zentry (b : ℚ) (s : ℕ) : ZoneInterval :=
  let west := normalize_lon_point (zorigin b + (s : ℚ) * ZONE_WIDTH_DEG)
  ⟨(9 - (s : ℤ)) % 10, west, normalize_lon_point (west + ZONE_WIDTH_DEG)⟩

/-- The floor-step count of a point `p` east of the zone origin. -/
def dsteps (p b : ℚ) : ℤ := ⌊pymod (p - zorigin b) 360 / ZONE_WIDTH_DEG⌋

/-- Tagged model of a Python float, for the NaN/infinity behaviour of the
normalizer: a finite value, NaN, or a signed infinity. -/
inductive PFloat where
  | fin (q : ℚ)
  | nan
  | inf
  | ninf
deriving DecidableEq, Repr

/-- Python float `+` with a finite right operand. -/
def pfAdd : PFloat → ℚ → PFloat
  | .fin q, r => .fin (q + r)
  | .nan, _ => .nan
  | .inf, _ => .inf
  | .ninf, _ => .ninf

/-- Python float `-` with a finite right operand. -/
def pfSub : PFloat → ℚ → PFloat
  | .fin q, r => .fin (q - r)
  | .nan, _ => .nan
  | .inf, _ => .inf
  | .ninf, _ => .ninf

/-- Python float `% 360.0`: NaN and ±inf all give NaN. -/
def pfMod360 : PFloat → PFloat
  | .fin q => .fin (pymod q 360)
  | .nan => .nan
  | .inf => .nan
  | .ninf => .nan

/-- Python float `==` against a finite literal: false for NaN and ±inf. -/
def pfEq : PFloat → ℚ → Bool
  | .fin q, r => decide (q = r)
  | .nan, _ => false
  | .inf, _ => false
  | .ninf, _ => false

/-- Python float `> 0`: false for NaN and -inf, true for +inf. -/
def pfGtZero : PFloat → Bool
  | .fin q => decide (0 < q)
  | .nan => false
  | .inf => true
  | .ninf => false

/-- Model of `normalize_lon_edge` under Python float semantics, so that
its behaviour on NaN and ±inf inputs can be stated. -/
def normalize_lon_edge_f (lon : PFloat) : PFloat :=
  let x := pfSub (pfMod360 (pfAdd lon 180)) 180
  if pfEq x (-180) && pfGtZero lon then .fin 180 else x

/-- Model of `normalize_lon_point` under Python float semantics. -/
def normalize_lon_point_f (lon : PFloat) : PFloat :=
  let x := normalize_lon_edge_f lon
  if pfEq x 180 then .fin (-180) else x

/-! ## Basic lemmas about `pymod` -/

theorem pymod_nonneg (x : ℚ) : 0 ≤ pymod x 360 := by
  have h1 : ((⌊x / 360⌋ : ℚ)) ≤ x / 360 := Int.floor_le _
  have h3 : x / 360 * 360 = x := div_mul_cancel₀ x (by norm_num)
  have h1' := mul_le_mul_of_nonneg_right h1 (by norm_num : (0:ℚ) ≤ 360)
  rw [h3] at h1'
  unfold pymod
  linarith

theorem pymod_lt_360 (x : ℚ) : pymod x 360 < 360 := by
  have h2 : x / 360 < ⌊x / 360⌋ + 1 := Int.lt_floor_add_one _
  have h3 : x / 360 * 360 = x := div_mul_cancel₀ x (by norm_num)
  have h2' := mul_lt_mul_of_pos_right h2 (by norm_num : (0:ℚ) < 360)
  rw [h3] at h2'
  unfold pymod
  linarith

theorem pymod_congr {x y : ℚ} (k : ℤ) (h : x - y = 360 * k) :
    pymod x 360 = pymod y 360 := by
  unfold pymod
  have hx : x / 360 = y / 360 + (k : ℚ) := by field_simp; linarith
  rw [hx, Int.floor_add_int]
  push_cast
  linarith

theorem pymod_eq_self {x : ℚ} (h0 : 0 ≤ x) (h1 : x < 360) : pymod x 360 = x := by
  have hfl : ⌊x / 360⌋ = 0 := by
    apply Int.floor_eq_zero_iff.mpr
    rw [Set.mem_Ico]
    constructor
    · positivity
    · rw [div_lt_one (by norm_num : (0:ℚ) < 360)]; linarith
  unfold pymod
  rw [hfl]
  ring

theorem pymod_eq_self_add {x : ℚ} (h0 : -360 ≤ x) (h1 : x < 0) :
    pymod x 360 = x + 360 := by
  have h := pymod_congr (x := x) (y := x + 360) (-1) (by ring)
  rw [h, pymod_eq_self (by linarith) (by linarith)]

theorem pymod_sub_exists (x : ℚ) : ∃ k : ℤ, x - pymod x 360 = 360 * k :=
  ⟨⌊x / 360⌋, by unfold pymod; ring⟩

/-- Two rationals congruent mod 360 that are less than a full turn apart
are equal. -/
theorem eq_of_sub_eq_int_mul {x y : ℚ} (k : ℤ) (h : x - y = 360 * k)
    (h1 : -360 < x - y) (h2 : x - y < 360) : x = y := by
  have hb1 : (360:ℚ) * k < 360 := h ▸ h2
  have hb2 : -360 < (360:ℚ) * k := h ▸ h1
  have hq1 : (k:ℚ) < 1 := by linarith
  have hq2 : (-1:ℚ) < (k:ℚ) := by linarith
  have hk1 : k < 1 := by exact_mod_cast hq1
  have hk2 : -1 < k := by exact_mod_cast hq2
  have hk : k = 0 := by omega
  rw [hk] at h
  push_cast at h
  linarith

/-! ## Lemmas about the normalizers -/

theorem normalize_lon_edge_def (lon : ℚ) :
    normalize_lon_edge lon =
      if pymod (lon + 180) 360 - 180 = -180 ∧ 0 < lon then 180
      else pymod (lon + 180) 360 - 180 := rfl

theorem normalize_lon_point_def (lon : ℚ) :
    normalize_lon_point lon =
      if normalize_lon_edge lon = 180 then -180 else normalize_lon_edge lon := rfl

theorem normalize_lon_edge_sub (x : ℚ) :
    ∃ k : ℤ, normalize_lon_edge x - x = 360 * k := by
  rw [normalize_lon_edge_def]
  obtain ⟨k, hk⟩ := pymod_sub_exists (x + 180)
  split_ifs with h
  · refine ⟨1 - k, ?_⟩
    have h1 : pymod (x + 180) 360 = 0 := by linarith [h.1]
    rw [h1] at hk
    push_cast
    linarith
  · exact ⟨-k, by push_cast; linarith⟩

theorem normalize_lon_edge_mem (x : ℚ) :
    -180 ≤ normalize_lon_edge x ∧ normalize_lon_edge x ≤ 180 := by
  rw [normalize_lon_edge_def]
  split_ifs with h
  · norm_num
  · have h1 := pymod_nonneg (x + 180)
    have h2 := pymod_lt_360 (x + 180)
    constructor <;> linarith

theorem normalize_lon_edge_self {x : ℚ} (h0 : -180 ≤ x) (h1 : x ≤ 180) :
    normalize_lon_edge x = x := by
  rw [normalize_lon_edge_def]
  rcases eq_or_lt_of_le h1 with h180 | hlt
  · have hp : pymod (x + 180) 360 = 0 := by
      rw [pymod_congr (x := x + 180) (y := 0) 1 (by rw [h180]; ring)]
      exact pymod_eq_self le_rfl (by norm_num)
    rw [hp, if_pos ⟨by ring, by rw [h180]; norm_num⟩]
    exact h180.symm
  · have hp : pymod (x + 180) 360 = x + 180 :=
      pymod_eq_self (by linarith) (by linarith)
    rw [hp, if_neg]
    · ring
    · rintro ⟨ha, hb⟩
      linarith

theorem normalize_lon_edge_eq {x y : ℚ} (k : ℤ) (hc : y - x = 360 * k)
    (h0 : -180 < x) (h1 : x < 180) : normalize_lon_edge y = x := by
  obtain ⟨m, hm⟩ := normalize_lon_edge_sub y
  have hb := normalize_lon_edge_mem y
  apply eq_of_sub_eq_int_mul (m + k)
  · push_cast; linarith
  · linarith [hb.1]
  · linarith [hb.2]

theorem normalize_lon_edge_eq_180 {y : ℚ} (k : ℤ) (hc : y - 180 = 360 * k)
    (hy : 0 < y) : normalize_lon_edge y = 180 := by
  rw [normalize_lon_edge_def, if_pos]
  refine ⟨?_, hy⟩
  have hp : pymod (y + 180) 360 = 0 := by
    rw [pymod_congr (x := y + 180) (y := 0) (k + 1) (by push_cast; linarith)]
    exact pymod_eq_self le_rfl (by norm_num)
  rw [hp]
  ring

theorem normalize_lon_edge_eq_neg180 {y : ℚ} (k : ℤ) (hc : y - 180 = 360 * k)
    (hy : y ≤ 0) : normalize_lon_edge y = -180 := by
  have hp : pymod (y + 180) 360 = 0 := by
    rw [pymod_congr (x := y + 180) (y := 0) (k + 1) (by push_cast; linarith)]
    exact pymod_eq_self le_rfl (by norm_num)
  rw [normalize_lon_edge_def, hp, if_neg]
  · ring
  · rintro ⟨-, hb⟩
    linarith

theorem normalize_lon_point_sub (x : ℚ) :
    ∃ k : ℤ, normalize_lon_point x - x = 360 * k := by
  rw [normalize_lon_point_def]
  obtain ⟨k, hk⟩ := normalize_lon_edge_sub x
  split_ifs with h
  · exact ⟨k - 1, by rw [h] at hk; push_cast; linarith⟩
  · exact ⟨k, hk⟩

theorem normalize_lon_point_mem (x : ℚ) :
    -180 ≤ normalize_lon_point x ∧ normalize_lon_point x < 180 := by
  rw [normalize_lon_point_def]
  have h := normalize_lon_edge_mem x
  split_ifs with h'
  · norm_num
  · exact ⟨h.1, lt_of_le_of_ne h.2 h'⟩

theorem normalize_lon_point_self {x : ℚ} (h0 : -180 ≤ x) (h1 : x < 180) :
    normalize_lon_point x = x := by
  rw [normalize_lon_point_def, normalize_lon_edge_self h0 (le_of_lt h1),
    if_neg (ne_of_lt h1)]

theorem normalize_lon_point_eq {x y : ℚ} (k : ℤ) (hc : y - x = 360 * k)
    (h0 : -180 ≤ x) (h1 : x < 180) : normalize_lon_point y = x := by
  obtain ⟨m, hm⟩ := normalize_lon_point_sub y
  have hb := normalize_lon_point_mem y
  apply eq_of_sub_eq_int_mul (m + k)
  · push_cast; linarith
  · linarith [hb.1]
  · linarith [hb.2]

/-! ## Lemmas about the zone partition -/

theorem build_zone_intervals_eq (b : ℚ) :
    build_zone_intervals b = (List.range 10).map (zentry b) := rfl

theorem mem_build_iff (b : ℚ) (zi : ZoneInterval) :
    zi ∈ build_zone_intervals b ↔ ∃ s : ℕ, s < 10 ∧ zentry b s = zi := by
  rw [build_zone_intervals_eq]
  simp [List.mem_map, List.mem_range]

theorem zentry_zone (b : ℚ) (s : ℕ) : (zentry b s).zone = (9 - (s : ℤ)) % 10 := rfl

theorem zentry_west (b : ℚ) (s : ℕ) :
    (zentry b s).west = normalize_lon_point (zorigin b + (s : ℚ) * 36) := rfl

theorem zentry_east (b : ℚ) (s : ℕ) :
    (zentry b s).east = normalize_lon_point ((zentry b s).west + 36) := rfl

theorem zentry_west_mem (b : ℚ) (s : ℕ) :
    -180 ≤ (zentry b s).west ∧ (zentry b s).west < 180 := by
  rw [zentry_west]; exact normalize_lon_point_mem _

theorem zentry_west_sub (b : ℚ) (s : ℕ) :
    ∃ k : ℤ, (zentry b s).west - (zorigin b + (s : ℚ) * 36) = 360 * k := by
  rw [zentry_west]; exact normalize_lon_point_sub _

theorem zentry_east_sub (b : ℚ) (s : ℕ) :
    ∃ k : ℤ, (zentry b s).east - ((zentry b s).west + 36) = 360 * k := by
  rw [zentry_east]; exact normalize_lon_point_sub _

/-- Every generated zone interval has arc width exactly 36° mod 360. -/
theorem zentry_width (b : ℚ) (s : ℕ) :
    pymod ((zentry b s).east - (zentry b s).west) 360 = 36 := by
  obtain ⟨k, hk⟩ := zentry_east_sub b s
  rw [pymod_congr (y := 36) k (by linarith)]
  exact pymod_eq_self (by norm_num) (by norm_num)

/-- Translate point-minus-west into the canonical offset from the origin. -/
theorem pymod_sub_west (b p : ℚ) (s : ℕ) :
    pymod (p - (zentry b s).west) 360 =
      pymod (pymod (p - zorigin b) 360 - 36 * (s : ℚ)) 360 := by
  obtain ⟨k, hk⟩ := zentry_west_sub b s
  obtain ⟨m, hm⟩ := pymod_sub_exists (p - zorigin b)
  exact pymod_congr (m - k) (by push_cast; linarith)

theorem dsteps_def (p b : ℚ) : dsteps p b = ⌊pymod (p - zorigin b) 360 / 36⌋ := rfl

theorem dsteps_nonneg (p b : ℚ) : 0 ≤ dsteps p b := by
  rw [dsteps_def]
  exact Int.floor_nonneg.mpr (div_nonneg (pymod_nonneg _) (by norm_num))

theorem dsteps_le_nine (p b : ℚ) : dsteps p b ≤ 9 := by
  have h : ⌊pymod (p - zorigin b) 360 / 36⌋ < 10 := by
    apply Int.floor_lt.mpr
    rw [div_lt_iff₀ (by norm_num : (0:ℚ) < 36)]
    push_cast
    linarith [pymod_lt_360 (p - zorigin b)]
  rw [dsteps_def]
  omega

theorem dsteps_bracket (p b : ℚ) :
    36 * ((dsteps p b : ℚ)) ≤ pymod (p - zorigin b) 360 ∧
    pymod (p - zorigin b) 360 < 36 * ((dsteps p b : ℚ)) + 36 := by
  rw [dsteps_def]
  set d := pymod (p - zorigin b) 360 with hd
  have h1 : ((⌊d / 36⌋ : ℚ)) ≤ d / 36 := Int.floor_le _
  have h2 : d / 36 < ⌊d / 36⌋ + 1 := Int.lt_floor_add_one _
  have h3 : d / 36 * 36 = d := div_mul_cancel₀ _ (by norm_num)
  have h1' := mul_le_mul_of_nonneg_right h1 (by norm_num : (0:ℚ) ≤ 36)
  have h2' := mul_lt_mul_of_pos_right h2 (by norm_num : (0:ℚ) < 36)
  rw [h3] at h1' h2'
  constructor <;> linarith

/-- At the floor-step index the offset is the fractional remainder. -/
theorem pymod_sub_west_at (p b : ℚ) :
    pymod (p - (zentry b (dsteps p b).toNat).west) 360 =
      pymod (p - zorigin b) 360 - 36 * ((dsteps p b : ℚ)) := by
  have hs0 := dsteps_nonneg p b
  rw [pymod_sub_west]
  have hcast : (((dsteps p b).toNat : ℚ)) = ((dsteps p b : ℚ)) := by
    have h := Int.toNat_of_nonneg hs0
    exact_mod_cast congrArg (fun z : ℤ => (z : ℚ)) h
  rw [hcast]
  obtain ⟨br1, br2⟩ := dsteps_bracket p b
  exact pymod_eq_self (by linarith) (by linarith)

/-- At every other index the offset is at least a full zone width. -/
theorem pymod_sub_west_ge {p b : ℚ} {t : ℕ} (ht : t < 10)
    (hne : (t : ℤ) ≠ dsteps p b) : 36 ≤ pymod (p - (zentry b t).west) 360 := by
  rw [pymod_sub_west]
  obtain ⟨br1, br2⟩ := dsteps_bracket p b
  have hs0 := dsteps_nonneg p b
  have hs9 := dsteps_le_nine p b
  have hd0 := pymod_nonneg (p - zorigin b)
  have hd360 := pymod_lt_360 (p - zorigin b)
  have hsq0 : (0:ℚ) ≤ ((dsteps p b : ℚ)) := by exact_mod_cast hs0
  rcases lt_or_gt_of_ne hne with hlt | hgt
  · have htq : ((t : ℚ)) + 1 ≤ ((dsteps p b : ℚ)) := by
      exact_mod_cast (by omega : (t : ℤ) + 1 ≤ dsteps p b)
    have ht0 : (0:ℚ) ≤ ((t : ℚ)) := by positivity
    rw [pymod_eq_self (by linarith) (by linarith)]
    linarith
  · have htq : ((dsteps p b : ℚ)) + 1 ≤ ((t : ℚ)) := by
      exact_mod_cast (by omega : dsteps p b + 1 ≤ (t : ℤ))
    have ht9 : ((t : ℚ)) ≤ 9 := by exact_mod_cast (by omega : (t : ℤ) ≤ 9)
    rw [pymod_eq_self_add (by linarith) (by linarith)]
    linarith

theorem zone_steps_east_eq (lon b : ℚ) :
    zone_steps_east lon b = dsteps (normalize_lon_point lon) b := rfl

theorem zentry_def (b : ℚ) (s : ℕ) :
    zentry b s =
      ⟨(9 - (s : ℤ)) % 10,
       normalize_lon_point (zorigin b + (s : ℚ) * 36),
       normalize_lon_point
         (normalize_lon_point (zorigin b + (s : ℚ) * 36) + 36)⟩ := rfl

theorem lon_to_zone_interval_def (lon b : ℚ) :
    lon_to_zone_interval lon b =
      ⟨(9 - zone_steps_east lon b) % 10,
       normalize_lon_point (zorigin b + ((zone_steps_east lon b : ℤ) : ℚ) * 36),
       normalize_lon_point
         (normalize_lon_point (zorigin b + ((zone_steps_east lon b : ℤ) : ℚ) * 36) + 36)⟩ := rfl

/-- The function `lon_to_zone_interval` returns precisely the generated interval at its
floor-step index. -/
theorem lon_to_zone_interval_eq (lon b : ℚ) :
    lon_to_zone_interval lon b =
      zentry b (dsteps (normalize_lon_point lon) b).toNat := by
  have hs0 := dsteps_nonneg (normalize_lon_point lon) b
  have hcast : (((dsteps (normalize_lon_point lon) b).toNat : ℤ)) =
      dsteps (normalize_lon_point lon) b := Int.toNat_of_nonneg hs0
  have hcastq : (((dsteps (normalize_lon_point lon) b).toNat : ℚ)) =
      ((dsteps (normalize_lon_point lon) b : ℚ)) := by
    exact_mod_cast congrArg (fun z : ℤ => (z : ℚ)) hcast
  rw [lon_to_zone_interval_def, zentry_def, zone_steps_east_eq, hcast, hcastq]

/-- Membership in a generated arc holds exactly at the floor-step index. -/
theorem inArc_zentry_iff {p b : ℚ} {t : ℕ} (ht : t < 10) :
    inArc p (zentry b t) ↔ (t : ℤ) = dsteps p b := by
  unfold inArc
  rw [zentry_width]
  constructor
  · intro h
    by_contra hne
    have := pymod_sub_west_ge ht hne
    linarith
  · intro h
    have htn : (dsteps p b).toNat = t := by omega
    rw [← htn, pymod_sub_west_at]
    obtain ⟨br1, br2⟩ := dsteps_bracket p b
    linarith

theorem build_nodup (b : ℚ) : (build_zone_intervals b).Nodup := by
  rw [build_zone_intervals_eq]
  apply List.Nodup.map_on ?_ (List.nodup_range 10)
  intro x hx y hy hxy
  rw [List.mem_range] at hx hy
  have hz : (9 - (x : ℤ)) % 10 = (9 - (y : ℤ)) % 10 := congrArg ZoneInterval.zone hxy
  omega

/-- If at most one element of a duplicate-free list satisfies a predicate,
the filtered list is empty or that singleton. -/
theorem filter_eq_nil_or_singleton {α : Type} (l : List α) (p : α → Bool) (a : α)
    (hnd : l.Nodup) (h : ∀ x ∈ l, p x = true → x = a) :
    l.filter p = [] ∨ l.filter p = [a] := by
  induction l with
  | nil => left; rfl
  | cons x xs ih =>
    rw [List.nodup_cons] at hnd
    have hx := h x (List.mem_cons_self x xs)
    have hrest : ∀ y ∈ xs, p y = true → y = a := fun y hy => h y (List.mem_cons_of_mem _ hy)
    rcases ih hnd.2 hrest with hnil | hsing
    · by_cases hpx : p x = true
      · right
        rw [List.filter_cons_of_pos hpx, hnil, hx hpx]
      · left
        rw [List.filter_cons_of_neg hpx]
        exact hnil
    · by_cases hpx : p x = true
      · exfalso
        have hxa := hx hpx
        have ha_mem : a ∈ xs.filter p := by rw [hsing]; exact List.mem_singleton_self a
        have hmem : a ∈ xs := List.mem_of_mem_filter ha_mem
        exact hnd.1 (hxa ▸ hmem)
      · right
        rw [List.filter_cons_of_neg hpx]
        exact hsing

theorem sortByZone_nil : sortByZone [] = [] := rfl

theorem sortByZone_singleton (a : ZoneInterval) : sortByZone [a] = [a] := rfl

/-! ## Concrete evaluations of generated zone entries (default boundary) -/

theorem zentry_default_0 : zentry (1167/10) 0 = ⟨9, 807/10, 1167/10⟩ := by
  norm_num [zentry_def, zorigin, normalize_lon_point, normalize_lon_edge, pymod,
    ZONE_WIDTH_DEG]

theorem zentry_default_1 : zentry (1167/10) 1 = ⟨8, 1167/10, 1527/10⟩ := by
  norm_num [zentry_def, zorigin, normalize_lon_point, normalize_lon_edge, pymod,
    ZONE_WIDTH_DEG]

theorem zentry_default_2 : zentry (1167/10) 2 = ⟨7, 1527/10, -1713/10⟩ := by
  norm_num [zentry_def, zorigin, normalize_lon_point, normalize_lon_edge, pymod,
    ZONE_WIDTH_DEG]

theorem zentry_default_7 : zentry (1167/10) 7 = ⟨2, -273/10, 87/10⟩ := by
  norm_num [zentry_def, zorigin, normalize_lon_point, normalize_lon_edge, pymod,
    ZONE_WIDTH_DEG]

/-! ## Claim theorems -/

/-- C1: for every longitude `lon` and boundary `b`, `lon_to_zone_interval`
returns exactly the unique entry of `build_zone_intervals b` whose half-open
arc (eastward mod 360) contains `normalize_lon_point lon`; the ten returned
intervals tile the circle, so no point lies in zero or two zones. -/
theorem c1_point_in_unique_zone (lon b : ℚ) :
    (build_zone_intervals b).length = 10 ∧
    lon_to_zone_interval lon b ∈ build_zone_intervals b ∧
    inArc (normalize_lon_point lon) (lon_to_zone_interval lon b) ∧
    ∀ zi ∈ build_zone_intervals b,
      inArc (normalize_lon_point lon) zi → zi = lon_to_zone_interval lon b := by
  set p := normalize_lon_point lon with hp
  have hs0 := dsteps_nonneg p b
  have hs9 := dsteps_le_nine p b
  have htn : (dsteps p b).toNat < 10 := by omega
  refine ⟨?_, ?_, ?_, ?_⟩
  · rw [build_zone_intervals_eq]
    simp
  · rw [lon_to_zone_interval_eq]
    exact (mem_build_iff b _).mpr ⟨_, htn, rfl⟩
  · rw [lon_to_zone_interval_eq]
    exact (inArc_zentry_iff htn).mpr (by omega)
  · intro zi hmem harc
    obtain ⟨t, ht, hzi⟩ := (mem_build_iff b zi).mp hmem
    rw [← hzi] at harc ⊢
    have hts := (inArc_zentry_iff ht).mp harc
    rw [lon_to_zone_interval_eq]
    have : t = (dsteps p b).toNat := by omega
    rw [this]

/-- C1 witness: at longitude 100 with the default boundary, the unique
containing interval is zone 9's `[80.7, 116.7)`. -/
theorem c1_point_in_unique_zone_witness :
    (⟨9, 807/10, 1167/10⟩ : ZoneInterval) = lon_to_zone_interval 100 (1167/10) :=
  (c1_point_in_unique_zone 100 (1167/10)).2.2.2 ⟨9, 807/10, 1167/10⟩
    ((mem_build_iff _ _).mpr ⟨0, by norm_num, zentry_default_0⟩)
    (by
      unfold inArc
      have h100 : normalize_lon_point 100 = 100 :=
        normalize_lon_point_self (by norm_num) (by norm_num)
      rw [h100]
      norm_num [pymod])

/-- C2, counterexample: the input `-180` is in the equivalence class `180 + 360k`
(with `k = -1`), yet `normalize_lon_edge (-180)` is `-180`, not `+180` —
so "+180 exactly for the class 180 + 360k, k any integer" fails. -/
theorem c2_counterexample :
    (∃ k : ℤ, (-180 : ℚ) = 180 + 360 * k) ∧ normalize_lon_edge (-180) = -180 := by
  constructor
  · exact ⟨-1, by norm_num⟩
  · exact normalize_lon_edge_eq_neg180 (-1) (by norm_num) (by norm_num)

/-- C2 as amended: the function `normalize_lon_edge` always lands in [-180, 180], and it
returns +180 exactly when the input is positive and 360-congruent to 180
(i.e. `x = 180 + 360k` with `k ≥ 0`); all other inputs congruent to the
seam return -180. -/
theorem c2_edge_normalization (x : ℚ) :
    (-180 ≤ normalize_lon_edge x ∧ normalize_lon_edge x ≤ 180) ∧
    (normalize_lon_edge x = 180 ↔ 0 < x ∧ ∃ k : ℤ, x = 180 + 360 * k) := by
  refine ⟨normalize_lon_edge_mem x, ?_, ?_⟩
  · intro h
    rw [normalize_lon_edge_def] at h
    by_cases hc : pymod (x + 180) 360 - 180 = -180 ∧ 0 < x
    · obtain ⟨h1, h2⟩ := hc
      refine ⟨h2, ?_⟩
      obtain ⟨m, hm⟩ := pymod_sub_exists (x + 180)
      have hpz : pymod (x + 180) 360 = 0 := by linarith
      rw [hpz] at hm
      exact ⟨m - 1, by push_cast; linarith⟩
    · rw [if_neg hc] at h
      have := pymod_lt_360 (x + 180)
      linarith
  · rintro ⟨hx, k, hk⟩
    exact normalize_lon_edge_eq_180 k (by linarith) hx

/-- C2 witness: 540 = 180 + 360 is positive and seam-congruent, and indeed
normalizes to +180. -/
theorem c2_edge_normalization_witness : normalize_lon_edge 540 = 180 :=
  (c2_edge_normalization 540).2.mpr ⟨by norm_num, ⟨1, by norm_num⟩⟩

/-- C3: the floor-step count in `lon_to_zone_interval` is always an integer
in 0..9, hence the zone number `(9 - steps) % 10` is in 0..9 and the
west/east formulas produce a genuine generated zone interval. -/
theorem c3_steps_in_range (lon b : ℚ) :
    0 ≤ zone_steps_east lon b ∧ zone_steps_east lon b ≤ 9 ∧
    (lon_to_zone_interval lon b).zone = (9 - zone_steps_east lon b) % 10 ∧
    0 ≤ (lon_to_zone_interval lon b).zone ∧ (lon_to_zone_interval lon b).zone ≤ 9 ∧
    lon_to_zone_interval lon b ∈ build_zone_intervals b := by
  have h0 : 0 ≤ zone_steps_east lon b := by
    rw [zone_steps_east_eq]; exact dsteps_nonneg _ _
  have h9 : zone_steps_east lon b ≤ 9 := by
    rw [zone_steps_east_eq]; exact dsteps_le_nine _ _
  have hzone : (lon_to_zone_interval lon b).zone = (9 - zone_steps_east lon b) % 10 := by
    rw [lon_to_zone_interval_def]
  refine ⟨h0, h9, hzone, ?_, ?_, ?_⟩
  · rw [hzone]; omega
  · rw [hzone]; omega
  · rw [lon_to_zone_interval_eq]
    refine (mem_build_iff _ _).mpr ⟨_, ?_, rfl⟩
    have ha := dsteps_nonneg (normalize_lon_point lon) b
    have hb := dsteps_le_nine (normalize_lon_point lon) b
    omega

/-- C8: with the default boundary 116.7, the input 116.7 (zone 9's exclusive
east boundary) falls in zone 8 with interval [116.7, 152.7) — the boundary
is the inclusive west edge of zone 8 — while zone 9 is [80.7, 116.7). -/
theorem c8_boundary_point_zone8 :
    lon_to_zone_interval (1167/10) = ⟨8, 1167/10, 1527/10⟩ ∧
    (⟨9, 807/10, 1167/10⟩ : ZoneInterval) ∈ build_zone_intervals (1167/10) ∧
    (⟨8, 1167/10, 1527/10⟩ : ZoneInterval) ∈ build_zone_intervals (1167/10) := by
  refine ⟨?_, ?_, ?_⟩
  · norm_num [lon_to_zone_interval_def, zone_steps_east, zorigin,
      normalize_lon_point, normalize_lon_edge, pymod, ZONE_WIDTH_DEG,
      LANGFANG_LON_EAST_BOUNDARY]
  · exact (mem_build_iff _ _).mpr ⟨0, by norm_num, zentry_default_0⟩
  · exact (mem_build_iff _ _).mpr ⟨1, by norm_num, zentry_default_1⟩

/-- C10: the function `normalize_lon_point` is idempotent — the identity on every
value it can output. -/
theorem c10_normalize_point_idempotent (x : ℚ) :
    normalize_lon_point (normalize_lon_point x) = normalize_lon_point x := by
  obtain ⟨h0, h1⟩ := normalize_lon_point_mem x
  exact normalize_lon_point_self h0 h1

theorem split_range_def (west east : ℚ) :
    split_range west east =
      if normalize_lon_edge west ≤ normalize_lon_edge east
      then [(normalize_lon_edge west, normalize_lon_edge east)]
      else [(normalize_lon_edge west, 180), (-180, normalize_lon_edge east)] := rfl

/-- C5, counterexample: for input `(180, 0)` (which wraps, and is not a
degenerate `west == east` input) the first returned segment is `(180, 180)`,
which does not satisfy `a < b`. -/
theorem c5_counterexample :
    split_range 180 0 = [(180, 180), (-180, 0)] ∧
    normalize_lon_edge 180 ≠ normalize_lon_edge 0 ∧
    ∃ s ∈ split_range 180 0, ¬ s.1 < s.2 := by
  have h180 : normalize_lon_edge 180 = 180 :=
    normalize_lon_edge_self (by norm_num) (by norm_num)
  have h0 : normalize_lon_edge 0 = 0 :=
    normalize_lon_edge_self (by norm_num) (by norm_num)
  have hsp : split_range 180 0 = [(180, 180), (-180, 0)] := by
    rw [split_range_def, h180, h0, if_neg (by norm_num)]
  refine ⟨hsp, by rw [h180, h0]; norm_num, ⟨(180, 180), ?_, by norm_num⟩⟩
  rw [hsp]
  exact List.mem_cons_self _ _

/-- C5 as amended: after edge-normalizing the endpoints to `w`, `e`:
`w ≤ e` gives the single segment `(w, e)`; `e < w` gives exactly
`(w, 180)` and `(-180, e)`; every returned segment satisfies `a ≤ b`, and
`a < b` strictly provided `w ≠ e` and neither endpoint sits on the seam
(`w = 180` or `e = -180` produce a degenerate segment in the wrapping
case); a degenerate input `w = e` yields the single unsplit segment. -/
theorem c5_split_range (west east : ℚ) :
    (normalize_lon_edge west ≤ normalize_lon_edge east →
      split_range west east =
        [(normalize_lon_edge west, normalize_lon_edge east)]) ∧
    (normalize_lon_edge east < normalize_lon_edge west →
      split_range west east =
        [(normalize_lon_edge west, 180), (-180, normalize_lon_edge east)]) ∧
    (∀ s ∈ split_range west east, s.1 ≤ s.2) ∧
    (normalize_lon_edge west = normalize_lon_edge east →
      split_range west east =
        [(normalize_lon_edge west, normalize_lon_edge west)]) ∧
    (normalize_lon_edge west ≠ normalize_lon_edge east →
      normalize_lon_edge west ≠ 180 → normalize_lon_edge east ≠ -180 →
      ∀ s ∈ split_range west east, s.1 < s.2) := by
  obtain ⟨hw1, hw2⟩ := normalize_lon_edge_mem west
  obtain ⟨he1, he2⟩ := normalize_lon_edge_mem east
  rw [split_range_def]
  by_cases h : normalize_lon_edge west ≤ normalize_lon_edge east
  · rw [if_pos h]
    refine ⟨fun _ => rfl, fun hlt => absurd h (not_le.mpr hlt), ?_, ?_, ?_⟩
    · intro s hs
      rw [List.mem_singleton] at hs
      rw [hs]
      exact h
    · intro hEq
      rw [hEq]
    · intro hne h180 hneg s hs
      rw [List.mem_singleton] at hs
      rw [hs]
      exact lt_of_le_of_ne h hne
  · rw [if_neg h]
    push_neg at h
    refine ⟨fun hle => absurd hle (not_le.mpr h), fun _ => rfl, ?_, ?_, ?_⟩
    · intro s hs
      rw [List.mem_cons, List.mem_singleton] at hs
      rcases hs with hs | hs <;> rw [hs]
      · exact hw2
      · exact he1
    · intro hEq
      exact absurd hEq.symm (ne_of_lt h)
    · intro hne h180 hneg s hs
      rw [List.mem_cons, List.mem_singleton] at hs
      rcases hs with hs | hs <;> rw [hs]
      · exact lt_of_le_of_ne hw2 h180
      · exact lt_of_le_of_ne he1 (Ne.symm hneg)

/-- C5 witness: the seam-crossing range `(170, -170)` splits into the two
segments `(170, 180)` and `(-180, -170)`. -/
theorem c5_split_range_witness :
    split_range 170 (-170) = [(170, 180), (-180, -170)] := by
  have ha : normalize_lon_edge 170 = 170 :=
    normalize_lon_edge_self (by norm_num) (by norm_num)
  have hb : normalize_lon_edge (-170) = -170 :=
    normalize_lon_edge_self (by norm_num) (by norm_num)
  have h := (c5_split_range 170 (-170)).2.1 (by rw [ha, hb]; norm_num)
  rw [ha, hb] at h
  exact h

/-- C6: for [10, 20, 350] the largest circular gap is the 330° one from 20
east to 350, and the returned covering interval is its complement
`(edge-form of 350, 20) = (-10, 20)`, of width 30°. -/
theorem c6_min_cover_concrete :
    circular_min_cover_interval [10, 20, 350] = some (-10, 20) ∧
    lon360_to_edge 350 = -10 ∧
    pymod (350 - 20) 360 = 330 ∧
    (20 : ℚ) - (-10) = 30 := by
  refine ⟨?_, ?_, ?_, by norm_num⟩
  · norm_num [circular_min_cover_interval, sortAsc, insertSorted, lon_to_360,
      maxGapScan, List.range_succ, pymod, lon360_to_edge]
    intro h
    exact absurd h (by simp)
  · norm_num [lon360_to_edge]
  · norm_num [pymod]

/-- C7: a single-point input yields the degenerate interval `(p, p)` with
both endpoints the edge form of the point (via `lon_to_360` then
`lon360_to_edge`), so `west = east`. -/
theorem c7_single_point_cover (p : ℚ) :
    circular_min_cover_interval [p] =
      some (lon360_to_edge (lon_to_360 p), lon360_to_edge (lon_to_360 p)) := rfl

/-- Consistency of the float-tagged normalizer with the rational one on
finite inputs. -/
theorem normalize_lon_edge_f_fin (q : ℚ) :
    normalize_lon_edge_f (.fin q) = .fin (normalize_lon_edge q) := by
  by_cases h1 : pymod (q + 180) 360 - 180 = -180 <;> by_cases h2 : 0 < q <;>
    simp [normalize_lon_edge_f, normalize_lon_edge, pfAdd, pfMod360, pfSub,
      pfEq, pfGtZero, h1, h2]

/-- C4: under Python float semantics the normalizers do NOT reject NaN or
±infinity — `nan % 360` and `inf % 360` are NaN, every comparison with NaN
is false, so both normalizers return NaN, which then propagates into the
interval math instead of being rejected. -/
theorem c4_nan_infinity_propagates :
    normalize_lon_edge_f .nan = .nan ∧ normalize_lon_edge_f .inf = .nan ∧
    normalize_lon_edge_f .ninf = .nan ∧ normalize_lon_point_f .nan = .nan ∧
    normalize_lon_point_f .inf = .nan ∧ normalize_lon_point_f .ninf = .nan :=
  ⟨rfl, rfl, rfl, rfl, rfl, rfl⟩

/-! ## The degenerate-range resolver (C9) -/

theorem split_range_same (w : ℚ) :
    split_range w w = [(normalize_lon_edge w, normalize_lon_edge w)] := by
  rw [split_range_def, if_pos le_rfl]

theorem zones_covered_def (bw be b : ℚ) :
    zones_covered_by_lon_range bw be b =
      sortByZone ((build_zone_intervals b).filter fun zi =>
        (split_range bw be).any fun q =>
          (split_range zi.west zi.east).any fun zp => ranges_intersect q zp) := rfl

/-- For a degenerate query the resolver reduces to filtering on `zhit`. -/
theorem zones_covered_point_eq (w b : ℚ) :
    zones_covered_by_lon_range w w b =
      sortByZone ((build_zone_intervals b).filter (zhit (normalize_lon_edge w))) := by
  rw [zones_covered_def]
  congr 1
  apply List.filter_congr
  intro zi _
  rw [split_range_same]
  simp [zhit]

theorem any_pair_one (p a c : ℚ) :
    ((([(a, c)] : List (ℚ × ℚ)).any fun zp => ranges_intersect (p, p) zp) = true) ↔
      (p < c ∧ a < p) := by
  simp [ranges_intersect]

theorem any_pair_two (p a c a' c' : ℚ) :
    ((([(a, c), (a', c')] : List (ℚ × ℚ)).any fun zp =>
        ranges_intersect (p, p) zp) = true) ↔
      ((p < c ∧ a < p) ∨ (p < c' ∧ a' < p)) := by
  simp [ranges_intersect]

/-- A point in edge form strictly hits a zone's split segments exactly when
its eastward offset from the zone's west edge is strictly inside the 36°
arc and the point is not on the ±180 seam. -/
theorem zhit_seg_iff {p W E : ℚ} (hp1 : -180 ≤ p) (hp2 : p ≤ 180)
    (hW1 : -180 ≤ W) (hW2 : W < 180) (hE : E = normalize_lon_point (W + 36)) :
    (((split_range W E).any fun zp => ranges_intersect (p, p) zp) = true) ↔
      (0 < pymod (p - W) 360 ∧ pymod (p - W) 360 < 36 ∧ p ≠ 180 ∧ p ≠ -180) := by
  by_cases hc : W < 144
  · have hEv : E = W + 36 := by
      rw [hE]; exact normalize_lon_point_self (by linarith) (by linarith)
    have hsp : split_range W E = [(W, W + 36)] := by
      rw [hEv, split_range_def,
        normalize_lon_edge_self hW1 (by linarith),
        normalize_lon_edge_self (by linarith) (by linarith),
        if_pos (by linarith)]
    rw [hsp, any_pair_one]
    constructor
    · rintro ⟨h1, h2⟩
      have hv : pymod (p - W) 360 = p - W :=
        pymod_eq_self (by linarith) (by linarith)
      refine ⟨by rw [hv]; linarith, by rw [hv]; linarith, ?_, ?_⟩
      · intro h; rw [h] at h1; linarith
      · intro h; rw [h] at h2; linarith
    · rintro ⟨hp0, hp36, h180, hneg⟩
      have hplt : p < 180 := lt_of_le_of_ne hp2 h180
      by_cases hpW : 0 ≤ p - W
      · have hv : pymod (p - W) 360 = p - W := pymod_eq_self hpW (by linarith)
        rw [hv] at hp0 hp36
        exact ⟨by linarith, by linarith⟩
      · push_neg at hpW
        have hv : pymod (p - W) 360 = p - W + 360 :=
          pymod_eq_self_add (by linarith) (by linarith)
        rw [hv] at hp36
        exfalso; linarith
  · push_neg at hc
    have hEv : E = W - 324 := by
      rw [hE]
      exact normalize_lon_point_eq 1 (by ring) (by linarith) (by linarith)
    have hsp : split_range W E = [(W, 180), (-180, W - 324)] := by
      rw [hEv, split_range_def,
        normalize_lon_edge_self hW1 (le_of_lt hW2),
        normalize_lon_edge_self (by linarith) (by linarith),
        if_neg (not_le.mpr (by linarith))]
    rw [hsp, any_pair_two]
    constructor
    · rintro (⟨h1, h2⟩ | ⟨h1, h2⟩)
      · have hv : pymod (p - W) 360 = p - W :=
          pymod_eq_self (by linarith) (by linarith)
        refine ⟨by rw [hv]; linarith, by rw [hv]; linarith, ne_of_lt h1, ?_⟩
        intro h; rw [h] at h2; linarith
      · have hv : pymod (p - W) 360 = p - W + 360 :=
          pymod_eq_self_add (by linarith) (by linarith)
        refine ⟨by rw [hv]; linarith, by rw [hv]; linarith, ?_, ne_of_gt h2⟩
        intro h; rw [h] at h1; linarith
    · rintro ⟨hp0, hp36, h180, hneg⟩
      have hplt : p < 180 := lt_of_le_of_ne hp2 h180
      have hpgt : -180 < p := lt_of_le_of_ne hp1 (Ne.symm hneg)
      by_cases hpW : 0 ≤ p - W
      · left
        have hv : pymod (p - W) 360 = p - W := pymod_eq_self hpW (by linarith)
        rw [hv] at hp0 hp36
        exact ⟨hplt, by linarith⟩
      · right
        push_neg at hpW
        have hv : pymod (p - W) 360 = p - W + 360 :=
          pymod_eq_self_add (by linarith) (by linarith)
        rw [hv] at hp0 hp36
        exact ⟨by linarith, hpgt⟩

theorem zhit_point_iff (b : ℚ) {p : ℚ} (hp1 : -180 ≤ p) (hp2 : p ≤ 180) (t : ℕ) :
    zhit p (zentry b t) = true ↔
      (0 < pymod (p - (zentry b t).west) 360 ∧
       pymod (p - (zentry b t).west) 360 < 36 ∧ p ≠ 180 ∧ p ≠ -180) := by
  obtain ⟨hW1, hW2⟩ := zentry_west_mem b t
  exact zhit_seg_iff hp1 hp2 hW1 hW2 (zentry_east b t)

/-- Core analysis of the degenerate-range resolver over an arbitrary
edge-form point: the filtered-and-sorted result has at most one zone, is
empty exactly on zone boundaries or the seam, and otherwise is the single
zone strictly containing the point. -/
theorem c9_core (p b : ℚ) (hp1 : -180 ≤ p) (hp2 : p ≤ 180) :
    (sortByZone ((build_zone_intervals b).filter (zhit p))).length ≤ 1 ∧
    (sortByZone ((build_zone_intervals b).filter (zhit p)) = [] ↔
      p = 180 ∨ p = -180 ∨ ∃ zi ∈ build_zone_intervals b, p = zi.west) ∧
    (∀ zi, sortByZone ((build_zone_intervals b).filter (zhit p)) = [zi] →
      zi ∈ build_zone_intervals b ∧
      0 < pymod (p - zi.west) 360 ∧
      pymod (p - zi.west) 360 < pymod (zi.east - zi.west) 360) := by
  have hs0 := dsteps_nonneg p b
  have hs9 := dsteps_le_nine p b
  have htn : (dsteps p b).toNat < 10 := by omega
  obtain ⟨hbr1, hbr2⟩ := dsteps_bracket p b
  have hvS := pymod_sub_west_at p b
  have hchar : ∀ t : ℕ, t < 10 →
      (zhit p (zentry b t) = true ↔
        ((t : ℤ) = dsteps p b ∧
          0 < pymod (p - zorigin b) 360 - 36 * ((dsteps p b : ℚ)) ∧
          p ≠ 180 ∧ p ≠ -180)) := by
    intro t ht
    rw [zhit_point_iff b hp1 hp2 t]
    constructor
    · rintro ⟨hx0, hx36, h180, hneg⟩
      have hts : (t : ℤ) = dsteps p b := by
        by_contra hne
        have := pymod_sub_west_ge ht hne
        linarith
      have htn' : (dsteps p b).toNat = t := by omega
      rw [← htn', hvS] at hx0
      exact ⟨hts, hx0, h180, hneg⟩
    · rintro ⟨hts, hpos, h180, hneg⟩
      have htn' : (dsteps p b).toNat = t := by omega
      refine ⟨?_, ?_, h180, hneg⟩
      · rw [← htn', hvS]; exact hpos
      · rw [← htn', hvS]; linarith
  have hsub : ∀ zi ∈ build_zone_intervals b,
      zhit p zi = true → zi = zentry b (dsteps p b).toNat := by
    intro zi hmem hz
    obtain ⟨t, ht, hzi⟩ := (mem_build_iff b zi).mp hmem
    rw [← hzi] at hz ⊢
    have hts := ((hchar t ht).mp hz).1
    have hteq : t = (dsteps p b).toNat := by omega
    rw [hteq]
  have hfilter := filter_eq_nil_or_singleton (build_zone_intervals b) (zhit p)
      (zentry b (dsteps p b).toNat) (build_nodup b) hsub
  by_cases hP : 0 < pymod (p - zorigin b) 360 - 36 * ((dsteps p b : ℚ)) ∧
      p ≠ 180 ∧ p ≠ -180
  · have hmemS : zentry b (dsteps p b).toNat ∈
        (build_zone_intervals b).filter (zhit p) := by
      apply List.mem_filter.mpr
      refine ⟨(mem_build_iff b _).mpr ⟨_, htn, rfl⟩, ?_⟩
      exact (hchar _ htn).mpr ⟨by omega, hP.1, hP.2.1, hP.2.2⟩
    have hfil : (build_zone_intervals b).filter (zhit p) =
        [zentry b (dsteps p b).toNat] := by
      rcases hfilter with hnil | hsing
      · rw [hnil] at hmemS
        exact absurd hmemS (List.not_mem_nil _)
      · exact hsing
    rw [hfil, sortByZone_singleton]
    refine ⟨by simp, ?_, ?_⟩
    · constructor
      · intro h
        exact absurd h (by simp)
      · intro hrhs
        exfalso
        rcases hrhs with h | h | ⟨zi, hmem, hwest⟩
        · exact hP.2.1 h
        · exact hP.2.2 h
        · obtain ⟨t, ht, hzi⟩ := (mem_build_iff b zi).mp hmem
          have hwt : p = (zentry b t).west := by rw [hzi]; exact hwest
          have hv0 : pymod (p - (zentry b t).west) 360 = 0 := by
            rw [← hwt, sub_self]
            exact pymod_eq_self le_rfl (by norm_num)
          by_cases hts : (t : ℤ) = dsteps p b
          · have htn' : (dsteps p b).toNat = t := by omega
            rw [← htn', hvS] at hv0
            linarith [hP.1]
          · have := pymod_sub_west_ge ht hts
            linarith
    · intro zi hzi
      have hzi' : zentry b (dsteps p b).toNat = zi := by
        injection hzi
      rw [← hzi']
      refine ⟨(mem_build_iff b _).mpr ⟨_, htn, rfl⟩, ?_, ?_⟩
      · rw [hvS]; exact hP.1
      · rw [hvS, zentry_width]; linarith
  · have hfil : (build_zone_intervals b).filter (zhit p) = [] := by
      rcases hfilter with hnil | hsing
      · exact hnil
      · exfalso
        have hmem' : zentry b (dsteps p b).toNat ∈
            (build_zone_intervals b).filter (zhit p) := by
          rw [hsing]; exact List.mem_singleton_self _
        have hz := (List.mem_filter.mp hmem').2
        have hq := (hchar _ htn).mp hz
        exact hP ⟨hq.2.1, hq.2.2.1, hq.2.2.2⟩
    rw [hfil, sortByZone_nil]
    refine ⟨by simp, ?_, ?_⟩
    · constructor
      · intro _
        by_cases h180 : p = 180
        · exact Or.inl h180
        by_cases hneg : p = -180
        · exact Or.inr (Or.inl hneg)
        right; right
        have hd0 : pymod (p - zorigin b) 360 - 36 * ((dsteps p b : ℚ)) = 0 := by
          by_contra hne
          exact hP ⟨lt_of_le_of_ne (by linarith) (Ne.symm hne), h180, hneg⟩
        have hv0 : pymod (p - (zentry b (dsteps p b).toNat).west) 360 = 0 := by
          rw [hvS]; linarith
        obtain ⟨m, hm⟩ := pymod_sub_exists (p - (zentry b (dsteps p b).toNat).west)
        rw [hv0] at hm
        obtain ⟨hWa, hWb⟩ := zentry_west_mem b (dsteps p b).toNat
        have hplt : p < 180 := lt_of_le_of_ne hp2 h180
        have hwW : p = (zentry b (dsteps p b).toNat).west := by
          apply eq_of_sub_eq_int_mul m (by linarith) (by linarith) (by linarith)
        exact ⟨zentry b (dsteps p b).toNat,
          (mem_build_iff b _).mpr ⟨_, htn, rfl⟩, hwW⟩
      · intro _
        rfl
    · intro zi hzi
      exact absurd hzi (by simp)

/-- C9, counterexample: the degenerate query `(-180, -180)` (with the
default boundary) returns zero zones, yet `-180` is not on any zone
boundary — it lies strictly inside zone 7's arc — contradicting "zero zones
only when the point lies exactly on a zone boundary, otherwise exactly the
one zone whose open interior contains it". -/
theorem c9_counterexample :
    zones_covered_by_lon_range (-180) (-180) (1167/10) = [] ∧
    (∀ zi ∈ build_zone_intervals (1167/10),
      normalize_lon_edge (-180) ≠ zi.west ∧ normalize_lon_edge (-180) ≠ zi.east) ∧
    (∃ zi ∈ build_zone_intervals (1167/10),
      0 < pymod (normalize_lon_edge (-180) - zi.west) 360 ∧
      pymod (normalize_lon_edge (-180) - zi.west) 360 <
        pymod (zi.east - zi.west) 360) := by
  have hne : normalize_lon_edge (-180) = -180 :=
    normalize_lon_edge_self (by norm_num) (by norm_num)
  have hwest : ∀ t : ℕ, t < 10 → (zentry (1167/10) t).west ≠ -180 := by
    intro t ht hW
    obtain ⟨k, hk⟩ := zentry_west_sub (1167/10) t
    have hzor : zorigin (1167/10) = 807/10 := by
      norm_num [zorigin, normalize_lon_point, normalize_lon_edge, pymod,
        ZONE_WIDTH_DEG]
    rw [hW, hzor] at hk
    -- -180 - (80.7 + 36 t) = 360 k : fractional part makes this impossible
    have hk10 : (-2607 : ℚ) - 360 * (t : ℚ) = 3600 * (k : ℚ) := by linarith
    have hkz : (-2607 : ℤ) - 360 * (t : ℤ) = 3600 * k := by exact_mod_cast hk10
    omega
  refine ⟨?_, ?_, ?_⟩
  · rw [zones_covered_point_eq, hne]
    have hfil : (build_zone_intervals (1167/10)).filter (zhit (-180)) = [] := by
      apply List.filter_eq_nil_iff.mpr
      intro zi hmem
      obtain ⟨t, ht, hzi⟩ := (mem_build_iff _ zi).mp hmem
      rw [← hzi]
      intro hz
      have := (zhit_point_iff (1167/10) (by norm_num) (by norm_num) t).mp hz
      exact this.2.2.2 rfl
    rw [hfil, sortByZone_nil]
  · intro zi hmem
    obtain ⟨t, ht, hzi⟩ := (mem_build_iff _ zi).mp hmem
    rw [hne, ← hzi]
    constructor
    · intro h
      exact hwest t ht h.symm
    · intro h
      -- east of entry t is west of entry (t+1) mod 10, never -180 either
      obtain ⟨k, hk⟩ := zentry_east_sub (1167/10) t
      obtain ⟨m, hm⟩ := zentry_west_sub (1167/10) t
      have hzor : zorigin (1167/10) = 807/10 := by
        norm_num [zorigin, normalize_lon_point, normalize_lon_edge, pymod,
          ZONE_WIDTH_DEG]
      rw [hzor] at hm
      rw [← h] at hk
      -- -180 - (west + 36) = 360 k and west = 80.7 + 36 t + 360 m
      have hk10 : (-2607 : ℚ) - 360 * (t : ℚ) - 3600 * (m : ℚ) - 360 =
          3600 * (k : ℚ) := by linarith
      have hkz : (-2607 : ℤ) - 360 * (t : ℤ) - 3600 * m - 360 = 3600 * k := by
        exact_mod_cast hk10
      omega
  · refine ⟨zentry (1167/10) 2, (mem_build_iff _ _).mpr ⟨2, by norm_num, rfl⟩, ?_⟩
    rw [hne, zentry_width, zentry_default_2]
    have hv : pymod ((-180 : ℚ) - 1527/10) 360 = 273/10 := by
      rw [pymod_congr (y := 273/10) (-1) (by norm_num)]
      exact pymod_eq_self (by norm_num) (by norm_num)
    rw [show ((⟨7, 1527/10, -1713/10⟩ : ZoneInterval)).west = 1527/10 from rfl, hv]
    norm_num

/-- C9 as amended: for every degenerate query range (`west == east`) and
boundary, the resolver returns at most one zone; it returns zero zones
exactly when the edge-normalized point lies on a zone boundary or on the
±180 seam (where the splitter cuts every arc), and otherwise returns
exactly the one zone whose open interior strictly contains the point. -/
theorem c9_degenerate_range (w b : ℚ) :
    (zones_covered_by_lon_range w w b).length ≤ 1 ∧
    (zones_covered_by_lon_range w w b = [] ↔
      normalize_lon_edge w = 180 ∨ normalize_lon_edge w = -180 ∨
      ∃ zi ∈ build_zone_intervals b, normalize_lon_edge w = zi.west) ∧
    (∀ zi, zones_covered_by_lon_range w w b = [zi] →
      zi ∈ build_zone_intervals b ∧
      0 < pymod (normalize_lon_edge w - zi.west) 360 ∧
      pymod (normalize_lon_edge w - zi.west) 360 <
        pymod (zi.east - zi.west) 360) := by
  obtain ⟨hw1, hw2⟩ := normalize_lon_edge_mem w
  have hcore := c9_core (normalize_lon_edge w) b hw1 hw2
  rw [zones_covered_point_eq w b]
  exact hcore

/-- C9 witness: the degenerate query at the seam, `(180, 180)`, returns the
empty list of zones. -/
theorem c9_degenerate_range_witness :
    zones_covered_by_lon_range 180 180 (1167/10) = [] :=
  (c9_degenerate_range 180 (1167/10)).2.1.mpr
    (Or.inl (normalize_lon_edge_self (by norm_num) (by norm_num)))

end EarthZones
